import Mathlib

/-!
Shallow embedding of the CSP solver in `src/sudoku_csp/csp.py`.

Modelling conventions:
* Python variable names (strings) and values are both modelled as `Nat`;
  the code never inspects their structure, only compares for equality.
* Python `dict`s are modelled as insertion-ordered association lists
  (`List (key × value)`): lookup returns the first matching entry,
  assignment replaces the first matching entry or appends a fresh one at
  the end, exactly the observable behaviour of an insertion-ordered dict.
* Python `set`s of values are modelled as lists; only membership and
  emptiness of these sets are ever observed by the code, plus the length
  of the assignment dict.
* A `dict` read `d[k]` on a missing key raises `KeyError` in Python and
  `d.get(k)` returns `None`; both situations are only reachable from
  ill-formed inputs.  They are modelled by the default value `[]`
  (an empty domain / empty pair set); theorems that need to exclude the
  ill-formed inputs carry explicit well-formedness hypotheses.
-/

namespace Csp

/-- Association-list lookup, mirroring a Python dict read. -/
def dget {α β : Type} [DecidableEq α] : List (α × β) → α → Option β
  | [], _ => none
  | (k, v) :: rest, x => if k = x then some v else dget rest x

/-- Association-list update, mirroring a Python dict assignment `d[k] = v`:
the first entry with key `k` is replaced in place, otherwise the new entry is
appended at the end. -/
def dset {α β : Type} [DecidableEq α] : List (α × β) → α → β → List (α × β)
  | [], k, v => [(k, v)]
  | (k', v') :: rest, k, v =>
      if k' = k then (k, v) :: rest else (k', v') :: dset rest k v

/-- Domains of the CSP: the Python `dict[str, set]` mapping each variable to
its set of candidate values. -/
abbrev Domains : Type := List (Nat × List Nat)

/-- Binary constraints: the Python `dict[tuple[str, str], set]` mapping
variable pairs to sets of allowed value pairs. -/
abbrev BC : Type := List ((Nat × Nat) × List (Nat × Nat))

/-- Read `self.domains[v]`; a missing key (Python `KeyError`) is modelled by
the empty domain. -/
def getDom (d : Domains) (v : Nat) : List Nat := (dget d v).getD []

/-- Read `self.binary_constraints[e]`; a missing key is modelled by the empty
pair set. -/
def getBC (bc : BC) (e : Nat × Nat) : List (Nat × Nat) := (dget bc e).getD []

/-- Sum of the sizes of all domains; the termination measure for the AC-3
worklist loop. -/
def totalSize (d : Domains) : Nat := (d.map (fun p => p.2.length)).sum

@[simp] theorem dget_nil {α β : Type} [DecidableEq α] (x : α) :
    dget ([] : List (α × β)) x = none := rfl

theorem dget_cons {α β : Type} [DecidableEq α] (k : α) (v : β) (rest : List (α × β)) (x : α) :
    dget ((k, v) :: rest) x = if k = x then some v else dget rest x := rfl

theorem dget_dset_self {α β : Type} [DecidableEq α] (d : List (α × β)) (k : α) (v : β) :
    dget (dset d k v) k = some v := by
  induction d with
  | nil => simp [dset, dget]
  | cons p rest ih =>
      obtain ⟨k', v'⟩ := p
      by_cases h : k' = k
      · simp [dset, h, dget]
      · simp [dset, h, dget, ih]

theorem dget_dset_ne {α β : Type} [DecidableEq α] (d : List (α × β)) (k : α) (v : β)
    (x : α) (hx : x ≠ k) : dget (dset d k v) x = dget d x := by
  have hkx : ¬ k = x := fun h => hx h.symm
  induction d with
  | nil => simp [dset, dget, hkx]
  | cons p rest ih =>
      obtain ⟨k', v'⟩ := p
      by_cases h : k' = k
      · subst h
        simp [dset, dget, hkx]
      · by_cases h2 : k' = x
        · subst h2
          simp [dset, h, dget]
        · simp [dset, h, dget, h2, ih]

theorem dget_mem {α β : Type} [DecidableEq α] {d : List (α × β)} {k : α} {v : β}
    (h : dget d k = some v) : (k, v) ∈ d := by
  induction d with
  | nil => simp [dget] at h
  | cons p rest ih =>
      obtain ⟨k', v'⟩ := p
      by_cases hk : k' = k
      · subst hk
        simp [dget] at h
        simp [h]
      · simp [dget, hk] at h
        exact List.mem_cons_of_mem _ (ih h)

theorem totalSize_dset (d : Domains) (k : Nat) (v : List Nat) :
    totalSize (dset d k v) + (getDom d k).length = totalSize d + v.length := by
  induction d with
  | nil => simp [dset, totalSize, getDom, dget]
  | cons p rest ih =>
      obtain ⟨k', v'⟩ := p
      by_cases h : k' = k
      · subst h
        simp [dset, totalSize, getDom, dget]
        omega
      · simp only [dset, h, if_false, totalSize, List.map_cons, List.sum_cons, getDom,
          dget, if_neg h] at *
        omega

theorem getDom_dset_self (d : Domains) (k : Nat) (v : List Nat) :
    getDom (dset d k v) k = v := by
  simp [getDom, dget_dset_self]

theorem getDom_dset_ne (d : Domains) (k : Nat) (v : List Nat) (x : Nat) (hx : x ≠ k) :
    getDom (dset d k v) x = getDom d x := by
  simp [getDom, dget_dset_ne d k v x hx]

/-- The CSP instance: the three attributes set up by `CSP.__init__`.
The Python attribute `self.variables` is called `vars` here because Lean
reserves the identifier `variables`. -/
structure CSP where
  vars : List Nat
  domains : Domains
  binary_constraints : BC

/-- Value-pair set stored for one edge by `CSP.__init__`: all pairs from the
cross product of the two current domains with differing values, each in both
orientations.  Python stores them in a `set`; the list may contain duplicates,
but only membership in it is ever observed. -/
def pairSet (dA dB : List Nat) : List (Nat × Nat) :=
  dA.flatMap (fun value1 =>
    dB.flatMap (fun value2 =>
      if value1 ≠ value2 then [(value1, value2), (value2, value1)] else []))

/-- The constructor `CSP.__init__`: records the inputs and builds
`binary_constraints`, one key per edge (later duplicates overwrite earlier
ones, as in a Python dict). -/
def CSP.init (vs : List Nat) (domains : Domains) (edges : List (Nat × Nat)) : CSP :=
  { vars := vs
    domains := domains
    binary_constraints :=
      edges.foldl
        (fun bc e => dset bc e (pairSet (getDom domains e.1) (getDom domains e.2))) [] }

/-- One iteration of the inner `for x in self.domains[edge[0]].copy()` loop of
`CSP.revise`: `acc` carries the `revised` flag and the current domains; `x` is
kept when some `y` in the current domain of `edge[1]` forms an allowed pair,
and removed from the current domain of `edge[0]` otherwise. -/
def reviseStep (cs : List (Nat × Nat)) (e : Nat × Nat) (acc : Bool × Domains) (x : Nat) :
    Bool × Domains :=
  if (getDom acc.2 e.2).any (fun y => decide ((x, y) ∈ cs)) then acc
  else (true, dset acc.2 e.1 ((getDom acc.2 e.1).erase x))

/-- `CSP.revise`: does nothing on a pair that is not a stored constraint key;
otherwise walks a copy of the domain of `edge[0]` taken at entry, removing
unsupported values from the live domain as it goes, and reports whether
anything was removed. -/
def revise (bc : BC) (d : Domains) (e : Nat × Nat) : Bool × Domains :=
  if (dget bc e).isSome then
    (getDom d e.1).foldl (reviseStep (getBC bc e) e) (false, d)
  else (false, d)

/-- The re-enqueue step of `CSP.ac_3` after a successful revision of `edge`:
for every stored constraint key other than `edge` itself that has `edge[0]`
as an endpoint, letting `Xk` be the other endpoint of that key, the arc
`(Xk, edge[1])` is put on the queue, in constraint-dict iteration order. -/
def enqueueArcs (bc : BC) (e : Nat × Nat) : List (Nat × Nat) :=
  (bc.map Prod.fst).filterMap (fun c =>
    if c = e then none
    else if c.1 = e.1 ∨ c.2 = e.1 then
      some ((if c.2 = e.1 then c.1 else c.2), e.2)
    else none)

theorem reviseStep_cases (cs : List (Nat × Nat)) (e : Nat × Nat) (acc : Bool × Domains)
    (x : Nat) :
    reviseStep cs e acc x = acc ∨
    reviseStep cs e acc x = (true, dset acc.2 e.1 ((getDom acc.2 e.1).erase x)) := by
  unfold reviseStep
  split
  · exact Or.inl rfl
  · exact Or.inr rfl

theorem reviseAux_inv (cs : List (Nat × Nat)) (e : Nat × Nat) (d : Domains) :
    ∀ (xs : List Nat) (acc : Bool × Domains),
    (∀ x ∈ xs, x ∈ getDom d e.1) →
    (acc.1 = false → acc.2 = d) →
    (acc.1 = true → totalSize acc.2 < totalSize d) →
    (∀ v x, x ∈ getDom acc.2 v → x ∈ getDom d v) →
    (∀ v, v ≠ e.1 → getDom acc.2 v = getDom d v) →
    ((xs.foldl (reviseStep cs e) acc).1 = false → (xs.foldl (reviseStep cs e) acc).2 = d) ∧
    ((xs.foldl (reviseStep cs e) acc).1 = true →
      totalSize (xs.foldl (reviseStep cs e) acc).2 < totalSize d) ∧
    (∀ v x, x ∈ getDom (xs.foldl (reviseStep cs e) acc).2 v → x ∈ getDom d v) ∧
    (∀ v, v ≠ e.1 → getDom (xs.foldl (reviseStep cs e) acc).2 v = getDom d v) := by
  intro xs
  induction xs with
  | nil => intro acc _ h1 h2 h3 h4; exact ⟨h1, h2, h3, h4⟩
  | cons x rest ih =>
      intro acc hxs h1 h2 h3 h4
      simp only [List.foldl_cons]
      rcases reviseStep_cases cs e acc x with hstep | hstep
      · rw [hstep]
        exact ih acc (fun z hz => hxs z (List.mem_cons_of_mem _ hz)) h1 h2 h3 h4
      · rw [hstep]
        have hmem : ∀ v z, z ∈ getDom (dset acc.2 e.1 ((getDom acc.2 e.1).erase x)) v →
            z ∈ getDom d v := by
          intro v z hz
          by_cases hv : v = e.1
          · subst hv
            rw [getDom_dset_self] at hz
            exact h3 _ _ (List.mem_of_mem_erase hz)
          · rw [getDom_dset_ne _ _ _ _ hv] at hz
            exact h3 _ _ hz
        have hoth : ∀ v, v ≠ e.1 →
            getDom (dset acc.2 e.1 ((getDom acc.2 e.1).erase x)) v = getDom d v := by
          intro v hv
          rw [getDom_dset_ne _ _ _ _ hv]
          exact h4 v hv
        refine ih _ (fun z hz => hxs z (List.mem_cons_of_mem _ hz)) ?_ ?_ hmem hoth
        · intro hf; cases hf
        · intro _
          show totalSize (dset acc.2 e.1 ((getDom acc.2 e.1).erase x)) < totalSize d
          have hle : ((getDom acc.2 e.1).erase x).length ≤ (getDom acc.2 e.1).length :=
            (List.erase_sublist _ _).length_le
          have hts := totalSize_dset acc.2 e.1 ((getDom acc.2 e.1).erase x)
          rcases Bool.eq_false_or_eq_true acc.1 with hb | hb
          · have := h2 hb
            omega
          · -- first removal: the domains were still untouched and `x` is present
            have hacc := h1 hb
            subst hacc
            have hx : x ∈ getDom acc.2 e.1 := hxs x (List.mem_cons_self x rest)
            have hlt : ((getDom acc.2 e.1).erase x).length < (getDom acc.2 e.1).length := by
              rw [List.length_erase_of_mem hx]
              have : 0 < (getDom acc.2 e.1).length := List.length_pos_of_mem hx
              omega
            omega

theorem revise_inv (bc : BC) (d : Domains) (e : Nat × Nat) :
    ((revise bc d e).1 = false → (revise bc d e).2 = d) ∧
    ((revise bc d e).1 = true → totalSize (revise bc d e).2 < totalSize d) ∧
    (∀ v x, x ∈ getDom (revise bc d e).2 v → x ∈ getDom d v) ∧
    (∀ v, v ≠ e.1 → getDom (revise bc d e).2 v = getDom d v) := by
  unfold revise
  by_cases hk : (dget bc e).isSome = true
  · rw [if_pos hk]
    exact reviseAux_inv (getBC bc e) e d (getDom d e.1) (false, d)
      (fun x hx => hx) (fun _ => rfl) (by simp) (fun v x hx => hx) (fun v _ => rfl)
  · rw [if_neg hk]
    exact ⟨fun _ => rfl, by simp, fun v x hx => hx, fun v _ => rfl⟩

theorem revise_false_eq (bc : BC) (d : Domains) (e : Nat × Nat)
    (h : (revise bc d e).1 = false) : (revise bc d e).2 = d :=
  (revise_inv bc d e).1 h

theorem revise_true_size (bc : BC) (d : Domains) (e : Nat × Nat)
    (h : (revise bc d e).1 = true) : totalSize (revise bc d e).2 < totalSize d :=
  (revise_inv bc d e).2.1 h

theorem revise_mono (bc : BC) (d : Domains) (e : Nat × Nat) :
    ∀ v x, x ∈ getDom (revise bc d e).2 v → x ∈ getDom d v :=
  (revise_inv bc d e).2.2.1

theorem revise_other (bc : BC) (d : Domains) (e : Nat × Nat) :
    ∀ v, v ≠ e.1 → getDom (revise bc d e).2 v = getDom d v :=
  (revise_inv bc d e).2.2.2

theorem revise_true_dom_ne (bc : BC) (d : Domains) (e : Nat × Nat)
    (h : (revise bc d e).1 = true) : getDom d e.1 ≠ [] := by
  intro h0
  unfold revise at h
  by_cases hk : (dget bc e).isSome = true
  · rw [if_pos hk, h0] at h
    simp at h
  · rw [if_neg hk] at h
    cases h

theorem revise_size_le (bc : BC) (d : Domains) (e : Nat × Nat) :
    totalSize (revise bc d e).2 ≤ totalSize d := by
  rcases Bool.eq_false_or_eq_true (revise bc d e).1 with hb | hb
  · exact Nat.le_of_lt (revise_true_size bc d e hb)
  · rw [revise_false_eq bc d e hb]

theorem enqueueArcs_length_le (bc : BC) (e : Nat × Nat) :
    (enqueueArcs bc e).length ≤ bc.length := by
  calc (enqueueArcs bc e).length ≤ (bc.map Prod.fst).length := List.length_filterMap_le _ _
    _ = bc.length := List.length_map _ _

/-- The worklist loop of `CSP.ac_3`.  `revise` is pure, so evaluating it
several times in the branches is the same as the single call in the Python
code.  Termination: a revision that reports `true` strictly shrinks the total
domain size and enqueues at most one arc per stored constraint. -/
def ac3Loop (bc : BC) (d : Domains) (queue : List (Nat × Nat)) : Bool × Domains :=
  match queue with
  | [] => (true, d)
  | e :: rest =>
      if (revise bc d e).1 then
        if (getDom (revise bc d e).2 e.1).length ≤ 0 then (false, (revise bc d e).2)
        else ac3Loop bc (revise bc d e).2 (rest ++ enqueueArcs bc e)
      else ac3Loop bc (revise bc d e).2 rest
termination_by (bc.length + 1) * totalSize d + queue.length
decreasing_by
  · have h1 := revise_true_size bc d e (by assumption)
    have h2 := enqueueArcs_length_le bc e
    have h3 : (bc.length + 1) * totalSize (revise bc d e).2 + (bc.length + 1) ≤
        (bc.length + 1) * totalSize d := by
      have h4 : totalSize (revise bc d e).2 + 1 ≤ totalSize d := h1
      calc (bc.length + 1) * totalSize (revise bc d e).2 + (bc.length + 1)
          = (bc.length + 1) * (totalSize (revise bc d e).2 + 1) := by ring
        _ ≤ (bc.length + 1) * totalSize d := Nat.mul_le_mul_left _ h4
    simp only [List.length_append, List.length_cons]
    omega
  · have h1 := revise_size_le bc d e
    have h3 : (bc.length + 1) * totalSize (revise bc d e).2 ≤
        (bc.length + 1) * totalSize d := Nat.mul_le_mul_left _ h1
    simp only [List.length_cons]
    omega

/-- `CSP.ac_3`: seeds the queue with every stored constraint key, runs the
worklist loop, and returns the boolean result together with the final domains
(the Python method mutates `self.domains` in place). -/
def ac_3 (c : CSP) : Bool × Domains :=
  ac3Loop c.binary_constraints c.domains (c.binary_constraints.map Prod.fst)

theorem ac3Loop_mono (bc : BC) (d : Domains) (queue : List (Nat × Nat)) :
    ∀ v x, x ∈ getDom (ac3Loop bc d queue).2 v → x ∈ getDom d v := by
  induction d, queue using ac3Loop.induct bc with
  | case1 d =>
      intro v x hx
      rw [ac3Loop] at hx
      exact hx
  | case2 d e rest h1 h2 =>
      intro v x hx
      rw [ac3Loop, if_pos h1, if_pos h2] at hx
      exact revise_mono bc d e v x hx
  | case3 d e rest h1 h2 ih =>
      intro v x hx
      rw [ac3Loop, if_pos h1, if_neg h2] at hx
      exact revise_mono bc d e v x (ih v x hx)
  | case4 d e rest h1 ih =>
      intro v x hx
      rw [ac3Loop, if_neg h1] at hx
      exact revise_mono bc d e v x (ih v x hx)

theorem ac3Loop_true (bc : BC) (d : Domains) (queue : List (Nat × Nat)) :
    (ac3Loop bc d queue).1 = true →
    ∀ v, getDom (ac3Loop bc d queue).2 v = [] → getDom d v = [] := by
  induction d, queue using ac3Loop.induct bc with
  | case1 d =>
      intro _ v hv
      rw [ac3Loop] at hv
      exact hv
  | case2 d e rest h1 h2 =>
      intro hres
      rw [ac3Loop, if_pos h1, if_pos h2] at hres
      cases hres
  | case3 d e rest h1 h2 ih =>
      intro hres v hv
      rw [ac3Loop, if_pos h1, if_neg h2] at hres hv
      by_cases hveq : v = e.1
      · subst hveq
        exfalso
        apply h2
        rw [ih hres e.1 hv]
        simp
      · rw [← revise_other bc d e v hveq]
        exact ih hres v hv
  | case4 d e rest h1 ih =>
      intro hres v hv
      rw [ac3Loop, if_neg h1] at hres hv
      have hd := revise_false_eq bc d e (Bool.not_eq_true _ ▸ (by simpa using h1))
      rw [← hd]
      exact ih hres v hv

theorem ac3Loop_false (bc : BC) (d : Domains) (queue : List (Nat × Nat)) :
    (ac3Loop bc d queue).1 = false →
    ∃ v, getDom d v ≠ [] ∧ getDom (ac3Loop bc d queue).2 v = [] := by
  induction d, queue using ac3Loop.induct bc with
  | case1 d =>
      intro hres
      rw [ac3Loop] at hres
      cases hres
  | case2 d e rest h1 h2 =>
      intro _
      refine ⟨e.1, revise_true_dom_ne bc d e h1, ?_⟩
      rw [ac3Loop, if_pos h1, if_pos h2]
      have : (getDom (revise bc d e).2 e.1).length = 0 := Nat.le_zero.mp h2
      exact List.eq_nil_of_length_eq_zero this
  | case3 d e rest h1 h2 ih =>
      intro hres
      rw [ac3Loop, if_pos h1, if_neg h2] at hres ⊢
      obtain ⟨v, hne, hfin⟩ := ih hres
      refine ⟨v, ?_, hfin⟩
      obtain ⟨x, hx⟩ := List.exists_mem_of_ne_nil _ hne
      exact List.ne_nil_of_mem (revise_mono bc d e v x hx)
  | case4 d e rest h1 ih =>
      intro hres
      rw [ac3Loop, if_neg h1] at hres ⊢
      obtain ⟨v, hne, hfin⟩ := ih hres
      have hd := revise_false_eq bc d e (by simpa using h1)
      rw [hd] at hne
      exact ⟨v, hne, hfin⟩

/-- Assignments: the Python `dict[str, Any]` built during search, modelled as
an insertion-ordered association list from variables to values. -/
abbrev Assignment : Type := List (Nat × Nat)

/-- `CSP.is_consistent`: for every stored constraint key whose two endpoints
are both assigned, the assigned value pair must be a member of the pair set
looked up under that key. -/
def is_consistent (bc : BC) (a : Assignment) : Bool :=
  bc.all (fun ec =>
    match dget a ec.1.1, dget a ec.1.2 with
    | some value1, some value2 => decide ((value1, value2) ∈ getBC bc ec.1)
    | _, _ => true)

/-- `CSP.select_unassigned_variable`: the first variable, in input order, not
yet present in the assignment, or `None` when all are assigned. -/
def select_unassigned_variable (vs : List Nat) (a : Assignment) : Option Nat :=
  vs.find? (fun v => (dget a v).isNone)

/-- The `for value in self.domains.get(var)` loop of the inner `backtrack`
function.  `bt` is the recursive call at one less remaining depth.  The outer
`Option` layer is the fuel instrumentation of `backtrackF`: `none` means the
modelled recursion-depth budget ran out (a situation `backtrack_total` proves
unreachable from `backtracking_search`); `some none` is the Python `return
None`, `some (some r)` the Python `return result`.  The test `0 < result.length`
mirrors the Python truthiness test `if result:` on a dict. -/
def tryValues (c : CSP) (bt : Assignment → Option (Option Assignment)) (a : Assignment)
    (var : Nat) : List Nat → Option (Option Assignment)
  | [] => some none
  | value :: rest =>
      if is_consistent c.binary_constraints (dset a var value) then
        match bt (dset a var value) with
        | none => none
        | some (some result) =>
            if 0 < result.length then some (some result) else tryValues c bt a var rest
        | some none => tryValues c bt a var rest
      else tryValues c bt a var rest

/-- The inner recursive `backtrack` function of `CSP.backtracking_search`,
instrumented with a recursion-depth budget `fuel` (outer `none` = budget
exhausted; never reached from `backtracking_search`, see `backtrack_total`).
When `select_unassigned_variable` returns `None` although the assignment is
not yet full (possible only for ill-formed instances, e.g. duplicate
variables), the Python code raises a `TypeError` by iterating `None`; this is
modelled as `some none` (no solution). -/
def backtrackF (c : CSP) : Nat → Assignment → Option (Option Assignment)
  | 0, _ => none
  | fuel + 1, a =>
      if c.vars.length ≤ a.length then some (some a)
      else
        match select_unassigned_variable c.vars a with
        | none => some none
        | some var => tryValues c (backtrackF c fuel) a var (getDom c.domains var)

/-- `CSP.backtracking_search`: runs `backtrack` on the empty assignment.  The
depth budget `c.vars.length + 1` is proven sufficient by `backtrack_total`,
so the `getD none` default is never taken. -/
def backtracking_search (c : CSP) : Option Assignment :=
  (backtrackF c (c.vars.length + 1) []).getD none

theorem dget_eq_none_iff {α β : Type} [DecidableEq α] (d : List (α × β)) (k : α) :
    dget d k = none ↔ k ∉ d.map Prod.fst := by
  induction d with
  | nil => simp [dget]
  | cons p rest ih =>
      obtain ⟨k', v'⟩ := p
      by_cases h : k' = k
      · subst h
        simp [dget]
      · have h2 : k ≠ k' := fun hh => h hh.symm
        simp [dget, h, ih, h2]

theorem dset_map_fst_absent {α β : Type} [DecidableEq α] (d : List (α × β)) (k : α) (v : β)
    (h : dget d k = none) : (dset d k v).map Prod.fst = d.map Prod.fst ++ [k] := by
  induction d with
  | nil => simp [dset]
  | cons p rest ih =>
      obtain ⟨k', v'⟩ := p
      by_cases hk : k' = k
      · subst hk
        simp [dget] at h
      · simp only [dget, if_neg hk] at h
        simp [dset, hk, ih h]

theorem dset_length_absent {α β : Type} [DecidableEq α] (d : List (α × β)) (k : α) (v : β)
    (h : dget d k = none) : (dset d k v).length = d.length + 1 := by
  have h2 : ((dset d k v).map Prod.fst).length = (d.map Prod.fst ++ [k]).length := by
    rw [dset_map_fst_absent d k v h]
  simpa using h2

theorem select_some {vs : List Nat} {a : Assignment} {var : Nat}
    (h : select_unassigned_variable vs a = some var) :
    var ∈ vs ∧ dget a var = none := by
  unfold select_unassigned_variable at h
  refine ⟨List.mem_of_find?_eq_some h, ?_⟩
  have h2 := List.find?_some h
  simpa [Option.isNone_iff_eq_none] using h2

theorem tryValues_sound (c : CSP) (bt : Assignment → Option (Option Assignment))
    (a : Assignment) (var : Nat)
    (hbt : ∀ a2 r, (a2.map Prod.fst).Nodup → (∀ k ∈ a2.map Prod.fst, k ∈ c.vars) →
      is_consistent c.binary_constraints a2 = true → bt a2 = some (some r) →
      (r.map Prod.fst).Nodup ∧ (∀ k ∈ r.map Prod.fst, k ∈ c.vars) ∧
      is_consistent c.binary_constraints r = true ∧ c.vars.length ≤ r.length)
    (hnd : (a.map Prod.fst).Nodup) (hsub : ∀ k ∈ a.map Prod.fst, k ∈ c.vars)
    (hvar : var ∈ c.vars) (hunass : dget a var = none) :
    ∀ (values : List Nat) (r : Assignment),
    tryValues c bt a var values = some (some r) →
    (r.map Prod.fst).Nodup ∧ (∀ k ∈ r.map Prod.fst, k ∈ c.vars) ∧
    is_consistent c.binary_constraints r = true ∧ c.vars.length ≤ r.length := by
  intro values
  induction values with
  | nil =>
      intro r hr
      simp [tryValues] at hr
  | cons value rest ih =>
      intro r hr
      rw [tryValues] at hr
      by_cases hc : is_consistent c.binary_constraints (dset a var value) = true
      · rw [if_pos hc] at hr
        have hnd2 : ((dset a var value).map Prod.fst).Nodup := by
          rw [dset_map_fst_absent a var value hunass]
          rw [List.nodup_append]
          refine ⟨hnd, List.nodup_singleton var, ?_⟩
          intro k hk hk2
          simp at hk2
          rw [hk2] at hk
          exact ((dget_eq_none_iff a var).mp hunass) hk
        have hsub2 : ∀ k ∈ (dset a var value).map Prod.fst, k ∈ c.vars := by
          rw [dset_map_fst_absent a var value hunass]
          intro k hk
          rcases List.mem_append.mp hk with h | h
          · exact hsub k h
          · simp at h
            subst h
            exact hvar
        split at hr
        · cases hr
        · next result heq =>
            by_cases hlen : 0 < result.length
            · rw [if_pos hlen] at hr
              have hres : result = r := by
                injection hr with hr1
                injection hr1
              subst hres
              exact hbt _ result hnd2 hsub2 hc heq
            · rw [if_neg hlen] at hr
              exact ih r hr
        · exact ih r hr
      · rw [if_neg hc] at hr
        exact ih r hr

theorem backtrackF_sound (c : CSP) : ∀ (fuel : Nat) (a r : Assignment),
    (a.map Prod.fst).Nodup → (∀ k ∈ a.map Prod.fst, k ∈ c.vars) →
    is_consistent c.binary_constraints a = true →
    backtrackF c fuel a = some (some r) →
    (r.map Prod.fst).Nodup ∧ (∀ k ∈ r.map Prod.fst, k ∈ c.vars) ∧
    is_consistent c.binary_constraints r = true ∧ c.vars.length ≤ r.length := by
  intro fuel
  induction fuel with
  | zero =>
      intro a r _ _ _ h
      cases h
  | succ fuel ih =>
      intro a r hnd hsub hcons h
      rw [backtrackF] at h
      by_cases hfull : c.vars.length ≤ a.length
      · rw [if_pos hfull] at h
        have : a = r := by
          injection h with h1
          injection h1
        subst this
        exact ⟨hnd, hsub, hcons, hfull⟩
      · rw [if_neg hfull] at h
        split at h
        · cases h
        · next var hsel =>
            obtain ⟨hvar, hunass⟩ := select_some hsel
            exact tryValues_sound c (backtrackF c fuel) a var
              (fun a2 r2 hh1 hh2 hh3 hh4 => ih a2 r2 hh1 hh2 hh3 hh4)
              hnd hsub hvar hunass (getDom c.domains var) r h

theorem tryValues_total (c : CSP) (bt : Assignment → Option (Option Assignment))
    (a : Assignment) (var : Nat)
    (hbt : ∀ value, (bt (dset a var value)).isSome = true) :
    ∀ values : List Nat, (tryValues c bt a var values).isSome = true := by
  intro values
  induction values with
  | nil => simp [tryValues]
  | cons value rest ih =>
      rw [tryValues]
      by_cases hc : is_consistent c.binary_constraints (dset a var value) = true
      · rw [if_pos hc]
        split
        · next heq =>
            have := hbt value
            rw [heq] at this
            cases this
        · next result heq =>
            by_cases hlen : 0 < result.length
            · rw [if_pos hlen]; rfl
            · rw [if_neg hlen]; exact ih
        · exact ih
      · rw [if_neg hc]
        exact ih

theorem backtrackF_total (c : CSP) : ∀ (fuel : Nat) (a : Assignment),
    a.length ≤ c.vars.length → c.vars.length + 1 ≤ fuel + a.length →
    (backtrackF c fuel a).isSome = true := by
  intro fuel
  induction fuel with
  | zero =>
      intro a hle hbudget
      omega
  | succ fuel ih =>
      intro a hle hbudget
      rw [backtrackF]
      by_cases hfull : c.vars.length ≤ a.length
      · rw [if_pos hfull]; rfl
      · rw [if_neg hfull]
        cases hsel : select_unassigned_variable c.vars a with
        | none => rfl
        | some var =>
            obtain ⟨_, hunass⟩ := select_some hsel
            apply tryValues_total
            intro value
            apply ih
            · rw [dset_length_absent a var value hunass]
              omega
            · rw [dset_length_absent a var value hunass]
              omega

theorem mem_of_nodup_subset_length {l1 l2 : List Nat} (hnd : l1.Nodup)
    (hsub : ∀ k ∈ l1, k ∈ l2) (hlen : l2.length ≤ l1.length) : ∀ v ∈ l2, v ∈ l1 := by
  intro v hv
  by_contra hvl
  have hnd2 : (v :: l1).Nodup := by simp [List.nodup_cons, hvl, hnd]
  have h1 : (v :: l1).toFinset.card = l1.length + 1 := by
    rw [List.toFinset_card_of_nodup hnd2]
    simp
  have h2 : (v :: l1).toFinset ⊆ l2.toFinset := by
    intro x hx
    rw [List.mem_toFinset] at hx ⊢
    rcases List.mem_cons.mp hx with h | h
    · subst h; exact hv
    · exact hsub x h
  have h3 := Finset.card_le_card h2
  have h4 : l2.toFinset.card ≤ l2.length := List.toFinset_card_le l2
  omega

/-- The module-level helper `alldiff`: all pairs `(variables[i], variables[j])`
for `0 ≤ i < j < len(variables)`. -/
def alldiff (vs : List Nat) : List (Nat × Nat) :=
  (List.range (vs.length - 1)).flatMap (fun i =>
    (List.range' (i + 1) (vs.length - (i + 1))).map (fun j => (vs.getD i 0, vs.getD j 0)))

theorem init_bc_lookup (doms : Domains) (edges : List (Nat × Nat)) :
    ∀ (bc0 : BC) (k : Nat × Nat),
    dget (edges.foldl
        (fun bc e => dset bc e (pairSet (getDom doms e.1) (getDom doms e.2))) bc0) k
      = if k ∈ edges then some (pairSet (getDom doms k.1) (getDom doms k.2))
        else dget bc0 k := by
  induction edges with
  | nil => intro bc0 k; simp
  | cons e rest ih =>
      intro bc0 k
      simp only [List.foldl_cons]
      rw [ih]
      by_cases hk : k ∈ rest
      · rw [if_pos hk, if_pos (List.mem_cons_of_mem e hk)]
      · rw [if_neg hk]
        by_cases hke : k = e
        · subst hke
          rw [dget_dset_self, if_pos (List.mem_cons_self k rest)]
        · rw [dget_dset_ne _ _ _ _ hke]
          have hne : ¬ k ∈ e :: rest := by
            simp [hke, hk]
          rw [if_neg hne]

theorem pairSet_mem (dA dB : List Nat) (p : Nat × Nat) :
    p ∈ pairSet dA dB ↔
    ∃ a ∈ dA, ∃ b ∈ dB, a ≠ b ∧ (p = (a, b) ∨ p = (b, a)) := by
  unfold pairSet
  simp only [List.mem_flatMap]
  constructor
  · rintro ⟨a, ha, b, hb, hp⟩
    by_cases hab : a ≠ b
    · rw [if_pos hab] at hp
      simp only [List.mem_cons, List.mem_singleton] at hp
      rcases hp with hp | hp | hp
      · exact ⟨a, ha, b, hb, hab, Or.inl hp⟩
      · exact ⟨a, ha, b, hb, hab, Or.inr hp⟩
      · simp at hp
    · rw [if_neg hab] at hp
      simp at hp
  · rintro ⟨a, ha, b, hb, hab, hp⟩
    refine ⟨a, ha, b, hb, ?_⟩
    rw [if_pos hab]
    rcases hp with hp | hp
    · simp [hp]
    · simp [hp]

theorem is_consistent_spec (bc : BC) (a : Assignment) (h : is_consistent bc a = true) :
    ∀ k ps, dget bc k = some ps →
    ∀ v1 v2, dget a k.1 = some v1 → dget a k.2 = some v2 → (v1, v2) ∈ ps := by
  intro k ps hk v1 v2 h1 h2
  have hmem : (k, ps) ∈ bc := dget_mem hk
  have hall := List.all_eq_true.mp h (k, ps) hmem
  simp only at hall
  rw [h1, h2] at hall
  have : (v1, v2) ∈ getBC bc k := by
    simpa using hall
  rw [getBC, hk] at this
  simpa using this

theorem alldiff_mem (vs : List Nat) (p : Nat × Nat) :
    p ∈ alldiff vs ↔
    ∃ i j, i < j ∧ j < vs.length ∧ p = (vs.getD i 0, vs.getD j 0) := by
  unfold alldiff
  rw [List.mem_flatMap]
  constructor
  · rintro ⟨i, hi, hp⟩
    rw [List.mem_map] at hp
    obtain ⟨j, hj, hpe⟩ := hp
    rw [List.mem_range] at hi
    rw [List.mem_range'_1] at hj
    exact ⟨i, j, by omega, by omega, hpe.symm⟩
  · rintro ⟨i, j, hij, hjlen, hp⟩
    refine ⟨i, ?_, ?_⟩
    · rw [List.mem_range]; omega
    · rw [List.mem_map]
      refine ⟨j, ?_, hp.symm⟩
      rw [List.mem_range'_1]
      omega

theorem sum_range_down (m : Nat) :
    ((List.range m).map (fun i => m - i)).sum * 2 = m * (m + 1) := by
  have hbridge : ((List.range m).map (fun i => m - i)).sum
      = ∑ i ∈ Finset.range m, (m - i) := rfl
  have hreflect : (∑ i ∈ Finset.range m, (m - i)) = ∑ i ∈ Finset.range m, (i + 1) := by
    have h0 := Finset.sum_range_reflect (fun i => i + 1) m
    rw [← h0]
    apply Finset.sum_congr rfl
    intro j hj
    rw [Finset.mem_range] at hj
    omega
  have hsplit : (∑ i ∈ Finset.range m, (i + 1)) = (∑ i ∈ Finset.range m, i) + m := by
    rw [Finset.sum_add_distrib]
    simp
  have hgauss := Finset.sum_range_id_mul_two m
  rw [hbridge, hreflect, hsplit]
  cases m with
  | zero => simp
  | succ k =>
      have hk : (k + 1) * (k + 1 - 1) = (k + 1) * k := by simp
      rw [hk] at hgauss
      have : ((∑ i ∈ Finset.range (k + 1), i) + (k + 1)) * 2
          = (∑ i ∈ Finset.range (k + 1), i) * 2 + (k + 1) * 2 := by ring
      rw [this, hgauss]
      ring

theorem alldiff_length (vs : List Nat) :
    (alldiff vs).length = vs.length * (vs.length - 1) / 2 := by
  unfold alldiff
  rw [List.length_flatMap]
  have h1 : List.map (List.length ∘ fun i =>
        (List.range' (i + 1) (vs.length - (i + 1))).map (fun j => (vs.getD i 0, vs.getD j 0)))
        (List.range (vs.length - 1))
      = (List.range (vs.length - 1)).map (fun i => vs.length - 1 - i) := by
    apply List.map_congr_left
    intro i _
    simp only [Function.comp_apply, List.length_map, List.length_range']
    omega
  rw [h1]
  have h2 := sum_range_down (vs.length - 1)
  cases hn : vs.length with
  | zero => simp [hn]
  | succ k =>
      rw [hn] at h2
      have hk : k + 1 - 1 = k := rfl
      rw [hk] at h2 ⊢
      have hcomm : (k + 1) * k = k * (k + 1) := by ring
      omega

theorem alldiff_nodup (vs : List Nat) (hnd : vs.Nodup) : (alldiff vs).Nodup := by
  unfold alldiff
  rw [List.nodup_flatMap]
  constructor
  · intro i hi
    rw [List.mem_range] at hi
    apply List.Nodup.map_on
    · intro j1 hj1 j2 hj2 heq
      rw [List.mem_range'_1] at hj1 hj2
      have hb1 : j1 < vs.length := by omega
      have hb2 : j2 < vs.length := by omega
      have e2 : vs.getD j1 0 = vs.getD j2 0 := congrArg Prod.snd heq
      rw [List.getD_eq_getElem vs 0 hb1, List.getD_eq_getElem vs 0 hb2] at e2
      exact (List.Nodup.getElem_inj_iff hnd).mp e2
    · exact List.nodup_range' _ _
  · rw [List.pairwise_iff_getElem]
    intro a b ha hb hab
    rw [List.length_range] at ha hb
    simp only [List.getElem_range, Function.onFun]
    intro p hp1 hp2
    rw [List.mem_map] at hp1 hp2
    obtain ⟨j1, hj1, he1⟩ := hp1
    obtain ⟨j2, hj2, he2⟩ := hp2
    rw [List.mem_range'_1] at hj1 hj2
    have hba : a < vs.length := by omega
    have hbb : b < vs.length := by omega
    have e1 : vs.getD a 0 = vs.getD b 0 := by
      rw [← he2] at he1
      exact congrArg Prod.fst he1
    rw [List.getD_eq_getElem vs 0 hba, List.getD_eq_getElem vs 0 hbb] at e1
    have hinj := (List.Nodup.getElem_inj_iff hnd).mp e1
    omega

theorem init_bc (vs : List Nat) (doms : Domains) (edges : List (Nat × Nat)) :
    (CSP.init vs doms edges).binary_constraints
      = edges.foldl
          (fun bc e => dset bc e (pairSet (getDom doms e.1) (getDom doms e.2))) [] := rfl

theorem is_consistent_nil (bc : BC) : is_consistent bc [] = true := by
  unfold is_consistent
  rw [List.all_eq_true]
  intro ec _
  simp [dget]

/-- Example instance: two variables whose domains are both `{1}`, joined by one
must-differ edge. -/
def pairCsp : CSP := CSP.init [0, 1] [(0, [1]), (1, [1])] [(0, 1)]

/-- Example instance: domains `{1}` and `{1, 2}`, one must-differ edge `(0, 1)`. -/
def supCsp : CSP := CSP.init [0, 1] [(0, [1]), (1, [1, 2])] [(0, 1)]

/-- Example instance: domains `{1,2}`, `{1,2}`, `{1}` and edges `(0,1)`, `(1,2)`. -/
def chainCsp : CSP := CSP.init [0, 1, 2] [(0, [1, 2]), (1, [1, 2]), (2, [1])] [(0, 1), (1, 2)]

/-- Example instance: 2-coloring with two variables over `{1,2}` and one edge. -/
def twoColorCsp : CSP := CSP.init [0, 1] [(0, [1, 2]), (1, [1, 2])] [(0, 1)]

theorem ac3_pair_eval : ac_3 pairCsp = (false, [(0, []), (1, [1])]) := by
  simp [ac_3, pairCsp, CSP.init, ac3Loop, revise, reviseStep, getDom, getBC, dget, dset,
    pairSet, totalSize, enqueueArcs]

theorem ac3_sup_eval : ac_3 supCsp = (true, [(0, [1]), (1, [1, 2])]) := by
  simp [ac_3, supCsp, CSP.init, ac3Loop, revise, reviseStep, getDom, getBC, dget, dset,
    pairSet, totalSize, enqueueArcs]

theorem ac3_chain_eval : ac_3 chainCsp = (true, [(0, [1, 2]), (1, [2]), (2, [1])]) := by
  simp [ac_3, chainCsp, CSP.init, ac3Loop, revise, reviseStep, getDom, getBC, dget, dset,
    pairSet, totalSize, enqueueArcs]

/-- C1: the claim states that after a successful revision of a popped arc
`(X, Y)` the engine re-enqueues exactly the incoming arcs `(Z, X)`.  The code
instead enqueues `(Z, Y)` (it puts `(Xk, edge[1])`, not `(Xk, edge[0])`, on
the queue): with stored constraint keys `(0, 1)` and `(1, 2)` and popped arc
`(1, 2)`, the one arc enqueued is `(0, 2)`, and the incoming arc `(0, 1)`
demanded by the claim is not enqueued. -/
theorem c1_enqueue_divergence :
    enqueueArcs chainCsp.binary_constraints (1, 2) = [(0, 2)] ∧
    (0, 1) ∉ enqueueArcs chainCsp.binary_constraints (1, 2) := by
  constructor
  · decide
  · decide

/-- C2: the claim that a `True` result of `ac_3` makes every remaining value
arc-supported fails on the code, because the initial queue holds each stored
key in only one direction and the re-enqueue step adds the wrong arcs.  On
the instance with domains `{1}` and `{1, 2}` and the single edge `(0, 1)`,
`ac_3` returns `True`, the stored key `(0, 1)` touches variable `1`, value
`1` remains in the domain of variable `1`, yet no value of variable `0`
forms an allowed pair with it. -/
theorem c2_not_arc_consistent :
    (ac_3 supCsp).1 = true ∧
    (dget supCsp.binary_constraints (0, 1)).isSome = true ∧
    1 ∈ getDom (ac_3 supCsp).2 1 ∧
    ¬ ∃ y ∈ getDom (ac_3 supCsp).2 0, (y, 1) ∈ getBC supCsp.binary_constraints (0, 1) := by
  rw [ac3_sup_eval]
  exact ⟨rfl, by decide, by decide, by decide⟩

/-- C3: the claim that a second `ac_3` run never shrinks domains further fails
on the code.  On the instance with domains `{1,2}`, `{1,2}`, `{1}` and edges
`(0,1)`, `(1,2)`, the first run leaves value `2` in the domain of variable
`0` (it never rechecks the arc `(0, 1)` after variable `1` shrank), and the
second run removes it. -/
theorem c3_second_run_shrinks :
    2 ∈ getDom (ac_3 chainCsp).2 0 ∧
    2 ∉ getDom (ac_3 { chainCsp with domains := (ac_3 chainCsp).2 }).2 0 := by
  rw [ac3_chain_eval]
  constructor
  · decide
  · simp [ac_3, chainCsp, CSP.init, ac3Loop, revise, reviseStep, getDom, getBC, dget, dset,
      pairSet, totalSize, enqueueArcs]

/-- C4: whenever `backtracking_search` returns an assignment (rather than the
`None` signal), that assignment gives every declared variable exactly one
value (its keys are free of duplicates, lie among the variables, and cover
every variable), and for every stored constraint key the assigned value pair
belongs to that key's allowed-pairs set.  The hypotheses say the instance is
well-formed: every edge endpoint is a declared variable. -/
theorem c4_search_sound (vs : List Nat) (doms : Domains) (edges : List (Nat × Nat))
    (hedges : ∀ e ∈ edges, e.1 ∈ vs ∧ e.2 ∈ vs) (a : Assignment)
    (hres : backtracking_search (CSP.init vs doms edges) = some a) :
    (a.map Prod.fst).Nodup ∧
    (∀ k ∈ a.map Prod.fst, k ∈ vs) ∧
    (∀ v ∈ vs, (dget a v).isSome = true) ∧
    (∀ k ps, dget (CSP.init vs doms edges).binary_constraints k = some ps →
      ∃ v1 v2, dget a k.1 = some v1 ∧ dget a k.2 = some v2 ∧ (v1, v2) ∈ ps) := by
  set c := CSP.init vs doms edges with hc
  unfold backtracking_search at hres
  cases hbt : backtrackF c (c.vars.length + 1) [] with
  | none => rw [hbt] at hres; cases hres
  | some ro =>
      rw [hbt] at hres
      cases ro with
      | none => cases hres
      | some r =>
          have hra : r = a := by
            simpa using hres
          subst hra
          have hsound := backtrackF_sound c (c.vars.length + 1) [] r
            (by simp) (by simp) (is_consistent_nil _) hbt
          obtain ⟨hnd, hsub, hcons, hlen⟩ := hsound
          have hvars : c.vars = vs := rfl
          rw [hvars] at hsub hlen
          have hcover : ∀ v ∈ vs, v ∈ r.map Prod.fst := by
            apply mem_of_nodup_subset_length hnd hsub
            rw [List.length_map]
            exact hlen
          have hassigned : ∀ v ∈ vs, (dget r v).isSome = true := by
            intro v hv
            have hvk := hcover v hv
            rcases ho : dget r v with _ | w
            · rw [dget_eq_none_iff] at ho
              exact absurd hvk ho
            · rfl
          refine ⟨hnd, hsub, hassigned, ?_⟩
          intro k ps hk
          have hkedge : k ∈ edges := by
            by_contra hkn
            rw [hc, init_bc, init_bc_lookup doms edges [] k, if_neg hkn] at hk
            cases hk
          obtain ⟨h1v, h2v⟩ := hedges k hkedge
          have ha1 := hassigned k.1 h1v
          have ha2 := hassigned k.2 h2v
          rcases ho1 : dget r k.1 with _ | v1
          · rw [ho1] at ha1; cases ha1
          · rcases ho2 : dget r k.2 with _ | v2
            · rw [ho2] at ha2; cases ha2
            · exact ⟨v1, v2, rfl, rfl, is_consistent_spec c.binary_constraints r hcons
                k ps hk v1 v2 ho1 ho2⟩

/-- C4 witness: the theorem applied to the concrete 2-coloring instance, whose
search returns the assignment `{0 ↦ 1, 1 ↦ 2}`. -/
theorem c4_search_sound_witness :
    (dget ([(0, 1), (1, 2)] : Assignment) 0).isSome = true ∧
    (dget ([(0, 1), (1, 2)] : Assignment) 1).isSome = true :=
  ⟨(c4_search_sound [0, 1] [(0, [1, 2]), (1, [1, 2])] [(0, 1)] (by decide)
      [(0, 1), (1, 2)] (by decide)).2.2.1 0 (by decide),
    (c4_search_sound [0, 1] [(0, [1, 2]), (1, [1, 2])] [(0, 1)] (by decide)
      [(0, 1), (1, 2)] (by decide)).2.2.1 1 (by decide)⟩

/-- C5: `ac_3` returns `False` exactly when some domain that was non-empty at
entry has been emptied by propagation (so a `True` result means no domain was
emptied, and every final empty domain was already empty initially); and on
the two-variable instance with domains `{1}` and `{1}` and one must-differ
edge it returns `False`. -/
theorem c5_ac3_empty_domain :
    (∀ c : CSP, ((ac_3 c).1 = false ↔
      ∃ v, getDom c.domains v ≠ [] ∧ getDom (ac_3 c).2 v = [])) ∧
    (ac_3 pairCsp).1 = false := by
  constructor
  · intro c
    constructor
    · intro hfalse
      exact ac3Loop_false c.binary_constraints c.domains
        (c.binary_constraints.map Prod.fst) hfalse
    · rintro ⟨v, hne, hempty⟩
      rcases Bool.eq_false_or_eq_true (ac_3 c).1 with hb | hb
      · exfalso
        exact hne (ac3Loop_true c.binary_constraints c.domains
          (c.binary_constraints.map Prod.fst) hb v hempty)
      · exact hb
  · rw [ac3_pair_eval]

/-- C5 witness: the biconditional applied to the concrete unsatisfiable
two-variable instance, producing the emptied domain. -/
theorem c5_ac3_empty_domain_witness :
    ∃ v, getDom pairCsp.domains v ≠ [] ∧ getDom (ac_3 pairCsp).2 v = [] :=
  (c5_ac3_empty_domain.1 pairCsp).mp (by rw [ac3_pair_eval])

/-- C6: for every edge `(A, B)` supplied to the constructor, the constraint
map holds under the single key `(A, B)` exactly the pairs `(a, b)` and
`(b, a)` for `a` in the domain of `A` and `b` in the domain of `B` with
`a ≠ b`; and no key beyond the supplied edges is ever created. -/
theorem c6_init_constraints (vs : List Nat) (doms : Domains) (edges : List (Nat × Nat)) :
    (∀ e ∈ edges, ∃ s, dget (CSP.init vs doms edges).binary_constraints e = some s ∧
      ∀ p : Nat × Nat, p ∈ s ↔
        ∃ a ∈ getDom doms e.1, ∃ b ∈ getDom doms e.2, a ≠ b ∧ (p = (a, b) ∨ p = (b, a))) ∧
    (∀ k : Nat × Nat, (dget (CSP.init vs doms edges).binary_constraints k).isSome = true →
      k ∈ edges) := by
  constructor
  · intro e he
    refine ⟨pairSet (getDom doms e.1) (getDom doms e.2), ?_, pairSet_mem _ _⟩
    rw [init_bc, init_bc_lookup doms edges [] e, if_pos he]
  · intro k hk
    by_contra hkn
    rw [init_bc, init_bc_lookup doms edges [] k, if_neg hkn] at hk
    cases hk

/-- C6 witness: the characterisation applied to a concrete edge of the
instance with domains `{1}` and `{1, 2}`. -/
theorem c6_init_constraints_witness :
    ∃ s, dget (CSP.init [0, 1] [(0, [1]), (1, [1, 2])] [(0, 1)]).binary_constraints (0, 1)
        = some s ∧
      ∀ p : Nat × Nat, p ∈ s ↔
        ∃ a ∈ getDom [(0, [1]), (1, [1, 2])] 0, ∃ b ∈ getDom [(0, [1]), (1, [1, 2])] 1,
          a ≠ b ∧ (p = (a, b) ∨ p = (b, a)) :=
  (c6_init_constraints [0, 1] [(0, [1]), (1, [1, 2])] [(0, 1)]).1 (0, 1) (by decide)

/-- C7: `alldiff` returns exactly `N·(N-1)/2` edges; when the input variables
are pairwise distinct, the returned list has no duplicates, every edge joins
two distinct input variables, and for any two distinct input variables
exactly one orientation of their pair occurs. -/
theorem c7_alldiff (vs : List Nat) :
    ((alldiff vs).length = vs.length * (vs.length - 1) / 2) ∧
    (vs.Nodup →
      (alldiff vs).Nodup ∧
      (∀ p ∈ alldiff vs, p.1 ∈ vs ∧ p.2 ∈ vs ∧ p.1 ≠ p.2) ∧
      (∀ a b, a ∈ vs → b ∈ vs → a ≠ b →
        ((a, b) ∈ alldiff vs ↔ (b, a) ∉ alldiff vs))) := by
  refine ⟨alldiff_length vs, fun hnd => ⟨alldiff_nodup vs hnd, ?_, ?_⟩⟩
  · intro p hp
    rw [alldiff_mem] at hp
    obtain ⟨i, j, hij, hj, hp⟩ := hp
    have hbi : i < vs.length := by omega
    subst hp
    rw [List.getD_eq_getElem vs 0 hbi, List.getD_eq_getElem vs 0 hj]
    refine ⟨List.getElem_mem _, List.getElem_mem _, ?_⟩
    intro heq
    have := (List.Nodup.getElem_inj_iff hnd).mp heq
    omega
  · intro a b ha hb hab
    obtain ⟨ia, hia, hga⟩ := List.getElem_of_mem ha
    obtain ⟨ib, hib, hgb⟩ := List.getElem_of_mem hb
    have hne : ia ≠ ib := by
      intro h
      subst h
      rw [hga] at hgb
      exact hab hgb
    constructor
    · intro hmem hmem2
      rw [alldiff_mem] at hmem hmem2
      obtain ⟨i1, j1, hij1, hj1, hp1⟩ := hmem
      obtain ⟨i2, j2, hij2, hj2, hp2⟩ := hmem2
      have hbi1 : i1 < vs.length := by omega
      have hbi2 : i2 < vs.length := by omega
      rw [List.getD_eq_getElem vs 0 hbi1, List.getD_eq_getElem vs 0 hj1] at hp1
      rw [List.getD_eq_getElem vs 0 hbi2, List.getD_eq_getElem vs 0 hj2] at hp2
      have ea1 : vs[i1] = a := (congrArg Prod.fst hp1).symm
      have eb1 : vs[j1] = b := (congrArg Prod.snd hp1).symm
      have eb2 : vs[i2] = b := (congrArg Prod.fst hp2).symm
      have ea2 : vs[j2] = a := (congrArg Prod.snd hp2).symm
      rw [← ea2] at ea1
      rw [← eb2] at eb1
      have h1 := (List.Nodup.getElem_inj_iff hnd).mp ea1
      have h2 := (List.Nodup.getElem_inj_iff hnd).mp eb1
      omega
    · intro hnot
      rcases Nat.lt_or_ge ia ib with hlt | hge
      · rw [alldiff_mem]
        refine ⟨ia, ib, hlt, hib, ?_⟩
        rw [List.getD_eq_getElem vs 0 hia, List.getD_eq_getElem vs 0 hib, hga, hgb]
      · have hlt : ib < ia := by omega
        exfalso
        apply hnot
        rw [alldiff_mem]
        refine ⟨ib, ia, hlt, hia, ?_⟩
        rw [List.getD_eq_getElem vs 0 hib, List.getD_eq_getElem vs 0 hia, hga, hgb]

/-- C7 witness: the theorem applied to the concrete variable list `[0, 1, 2]`. -/
theorem c7_alldiff_witness :
    (alldiff [0, 1, 2]).length = [0, 1, 2].length * ([0, 1, 2].length - 1) / 2 ∧
    ((0, 1) ∈ alldiff [0, 1, 2] ↔ (1, 0) ∉ alldiff [0, 1, 2]) :=
  ⟨(c7_alldiff [0, 1, 2]).1,
    ((c7_alldiff [0, 1, 2]).2 (by decide)).2.2 0 1 (by decide) (by decide) (by decide)⟩

/-- C8: domains only ever shrink: every value present after a `revise` call,
or after a full `ac_3` run, was already present before.  (The search engine
of this embedding returns only the assignment and leaves the domain and
constraint structures of the instance untouched by construction, matching the
Python code, which never writes to them during search.) -/
theorem c8_domains_shrink :
    (∀ (bc : BC) (d : Domains) (e : Nat × Nat) (v x : Nat),
      x ∈ getDom (revise bc d e).2 v → x ∈ getDom d v) ∧
    (∀ (c : CSP) (v x : Nat), x ∈ getDom (ac_3 c).2 v → x ∈ getDom c.domains v) :=
  ⟨revise_mono,
    fun c => ac3Loop_mono c.binary_constraints c.domains (c.binary_constraints.map Prod.fst)⟩

/-- C8 witness: on the chain instance the value 2 surviving in variable 1's
domain after `ac_3` was present initially. -/
theorem c8_domains_shrink_witness : 2 ∈ getDom chainCsp.domains 1 :=
  c8_domains_shrink.2 chainCsp 1 2 (by rw [ac3_chain_eval]; decide)

/-- C9: each recursive call of `backtrack` strictly enlarges the assignment
(assigning an unassigned variable adds exactly one entry), and consequently
a recursion-depth budget of `variables + 1` always suffices: `backtrackF`
never exhausts its fuel when started from the empty assignment, for any
instance. -/
theorem c9_backtrack_terminates :
    (∀ (a : Assignment) (var value : Nat), dget a var = none →
      (dset a var value).length = a.length + 1) ∧
    (∀ c : CSP, (backtrackF c (c.vars.length + 1) []).isSome = true) :=
  ⟨fun a var value h => dset_length_absent a var value h,
    fun c => backtrackF_total c (c.vars.length + 1) [] (by simp) (by simp)⟩

/-- C9 witness: the two parts at concrete inputs. -/
theorem c9_backtrack_terminates_witness :
    (dset ([] : Assignment) 0 5).length = List.length ([] : Assignment) + 1 ∧
    (backtrackF pairCsp (pairCsp.vars.length + 1) []).isSome = true :=
  ⟨c9_backtrack_terminates.1 [] 0 5 rfl, c9_backtrack_terminates.2 pairCsp⟩

/-- C10: `revise` on a pair that is not a stored constraint key reports no
revision and leaves the domains untouched, and consequently an arc on the
worklist that is not a stored key is skipped by the `ac_3` loop without any
effect. -/
theorem c10_revise_non_key :
    (∀ (bc : BC) (d : Domains) (e : Nat × Nat), dget bc e = none →
      revise bc d e = (false, d)) ∧
    (∀ (bc : BC) (d : Domains) (e : Nat × Nat) (rest : List (Nat × Nat)),
      dget bc e = none → ac3Loop bc d (e :: rest) = ac3Loop bc d rest) := by
  have h1 : ∀ (bc : BC) (d : Domains) (e : Nat × Nat), dget bc e = none →
      revise bc d e = (false, d) := by
    intro bc d e h
    unfold revise
    rw [if_neg (by simp [h])]
  refine ⟨h1, ?_⟩
  intro bc d e rest h
  rw [ac3Loop, h1 bc d e h]
  simp

/-- C10 witness: the non-key pair `(5, 6)` is a no-op for `revise` on a
one-variable domain store with an empty constraint map. -/
theorem c10_revise_non_key_witness :
    revise [] [(0, [1])] (5, 6) = (false, [(0, [1])]) :=
  c10_revise_non_key.1 [] [(0, [1])] (5, 6) rfl

end Csp
